import Mathlib

/-!
Verification of the cursor-based multi-order pagination engine from
dropshot/examples/pagination-multi.rs.

The Rust source is shallowly embedded as follows:
* Rust structs/enums become Lean structures/inductives with the same names.
* DateTime values are modelled as Int (timestamp in milliseconds); the Rust
  ordering on DateTime is chronological, which coincides with Int order.
* BTreeMap is modelled as an association list stored in ascending key order;
  range queries with an excluded bound become filters over the list, and
  reverse iteration becomes List.reverse.  Sortedness (List.Pairwise) and
  key consistency are stated as explicit well-formedness hypotheses.
* The handler example_list_projects returns Option: none models the
  process-aborting "unsupported mode" panic in the From impl (source line
  97); there is no error channel because the handler constructs no HttpError.
-/

/-- Mirrors dropshot::PaginationOrder. -/
inductive PaginationOrder where
  | Ascending
  | Descending
deriving DecidableEq, Repr

/-- Mirrors struct Project { name, mtime } from the source (mtime as Int). -/
structure Project where
  name : String
  mtime : Int
deriving DecidableEq, Repr

/-- Mirrors enum ProjectScanMode. -/
inductive ProjectScanMode where
  | ByNameAscending
  | ByNameDescending
  | ByMtimeDescending
deriving DecidableEq, Repr

/-- Mirrors enum ProjectScanPageSelector. -/
inductive ProjectScanPageSelector where
  | Name : PaginationOrder → String → ProjectScanPageSelector
  | MtimeName : PaginationOrder → Int → String → ProjectScanPageSelector
deriving DecidableEq, Repr

/-- Mirrors the impl From of a page selector reference for ProjectScanMode
(source lines 84-100).  The Rust code panics on the MtimeName/Ascending
combination; the panic is modelled as none. -/
def projectScanModeFrom : ProjectScanPageSelector → Option ProjectScanMode
  | ProjectScanPageSelector.Name PaginationOrder.Ascending _ =>
      some ProjectScanMode.ByNameAscending
  | ProjectScanPageSelector.Name PaginationOrder.Descending _ =>
      some ProjectScanMode.ByNameDescending
  | ProjectScanPageSelector.MtimeName PaginationOrder.Descending _ _ =>
      some ProjectScanMode.ByMtimeDescending
  | ProjectScanPageSelector.MtimeName PaginationOrder.Ascending _ _ => none

/-- Mirrors ProjectScan::page_selector_for (source lines 111-133). -/
def ProjectScan.page_selector_for (last_item : Project)
    (scan_mode : ProjectScanMode) : ProjectScanPageSelector :=
  match scan_mode with
  | ProjectScanMode.ByNameAscending =>
      ProjectScanPageSelector.Name PaginationOrder.Ascending last_item.name
  | ProjectScanMode.ByNameDescending =>
      ProjectScanPageSelector.Name PaginationOrder.Descending last_item.name
  | ProjectScanMode.ByMtimeDescending =>
      ProjectScanPageSelector.MtimeName PaginationOrder.Descending
        last_item.mtime last_item.name

/-- The order Rust's BTreeMap uses on String keys: lexicographic comparison of
the character sequences (on valid UTF-8 this coincides with Rust's byte
order).  Stated on String.data so that it is kernel-computable. -/
def strLt (a b : String) : Prop := a.data < b.data

instance (a b : String) : Decidable (strLt a b) :=
  inferInstanceAs (Decidable (a.data < b.data))

/-- Strict lexicographic order on the (mtime, name) keys of the by_mtime map:
this is exactly the order Rust gives tuples (DateTime, String). -/
def keyLt (a b : Int × String) : Prop :=
  a.1 < b.1 ∨ (a.1 = b.1 ∧ strLt a.2 b.2)

instance (a b : Int × String) : Decidable (keyLt a b) :=
  inferInstanceAs (Decidable (_ ∨ _))

/-- Mirrors struct ProjectCollection: the two BTreeMaps stored as association
lists in ascending key order. -/
structure ProjectCollection where
  by_name : List (String × Project)
  by_mtime : List ((Int × String) × Project)
deriving DecidableEq, Repr

/-- Mirrors iter_by_name_asc: iterate the by_name map in key order. -/
def ProjectCollection.iter_by_name_asc (c : ProjectCollection) : List Project :=
  c.by_name.map (fun e => e.2)

/-- Mirrors iter_by_name_desc: reverse iteration of the by_name map. -/
def ProjectCollection.iter_by_name_desc (c : ProjectCollection) : List Project :=
  (c.by_name.map (fun e => e.2)).reverse

/-- Mirrors iter_by_name_asc_from: range (Excluded last_seen, Unbounded). -/
def ProjectCollection.iter_by_name_asc_from (c : ProjectCollection)
    (last_seen : String) : List Project :=
  (c.by_name.filter (fun e => decide (strLt last_seen e.1))).map (fun e => e.2)

/-- Mirrors iter_by_name_desc_from: range (Unbounded, Excluded last_seen)
iterated in reverse. -/
def ProjectCollection.iter_by_name_desc_from (c : ProjectCollection)
    (last_seen : String) : List Project :=
  ((c.by_name.filter (fun e => decide (strLt e.1 last_seen))).map
    (fun e => e.2)).reverse

/-- Mirrors iter_by_mtime_asc. -/
def ProjectCollection.iter_by_mtime_asc (c : ProjectCollection) : List Project :=
  c.by_mtime.map (fun e => e.2)

/-- Mirrors iter_by_mtime_desc. -/
def ProjectCollection.iter_by_mtime_desc (c : ProjectCollection) : List Project :=
  (c.by_mtime.map (fun e => e.2)).reverse

/-- Mirrors iter_by_mtime_asc_from: range (Excluded (mtime, name), Unbounded). -/
def ProjectCollection.iter_by_mtime_asc_from (c : ProjectCollection)
    (last_mtime : Int) (last_name : String) : List Project :=
  (c.by_mtime.filter (fun e => decide (keyLt (last_mtime, last_name) e.1))).map
    (fun e => e.2)

/-- Mirrors iter_by_mtime_desc_from: range (Unbounded, Excluded (mtime, name))
iterated in reverse. -/
def ProjectCollection.iter_by_mtime_desc_from (c : ProjectCollection)
    (last_mtime : Int) (last_name : String) : List Project :=
  ((c.by_mtime.filter (fun e => decide (keyLt e.1 (last_mtime, last_name)))).map
    (fun e => e.2)).reverse

/-- Mirrors const DEFAULT_LIMIT (source line 136). -/
def DEFAULT_LIMIT : Nat := 5

/-- Mirrors const MAX_LIMIT (source line 138). -/
def MAX_LIMIT : Nat := 100

/-- The limit clamping at the top of example_list_projects (source lines
156-160): absent limit defaults to DEFAULT_LIMIT; values above MAX_LIMIT are
silently truncated.  The caller-supplied value is a NonZeroU64 in Rust, so it
is at least 1 whenever present. -/
def effective_limit (lim : Option Nat) : Nat :=
  if lim.getD DEFAULT_LIMIT > MAX_LIMIT then MAX_LIMIT else lim.getD DEFAULT_LIMIT

/-- Mirrors dropshot::WhichPage for this resource: a first-page request with an
optional scan mode, or a next-page request with a decoded page selector. -/
inductive WhichPage where
  | FirstPage : Option ProjectScanMode → WhichPage
  | NextPage : ProjectScanPageSelector → WhichPage
deriving DecidableEq, Repr

/-- Mirrors the body of example_list_projects (source lines 150-208).  The
returned value models Ok(HttpResponseOkPage(list_mode, projects)); none models
the "unsupported mode" panic reached through the From impl on a
MtimeName/Ascending selector.  No HttpError is constructed on any path. -/
def example_list_projects (data : ProjectCollection) (lim : Option Nat)
    (pp : WhichPage) : Option (ProjectScanMode × List Project) :=
  let limit := effective_limit lim
  match pp with
  | WhichPage.FirstPage none =>
      some (ProjectScanMode.ByNameAscending,
        (data.iter_by_name_asc).take limit)
  | WhichPage.FirstPage (some ProjectScanMode.ByNameAscending) =>
      some (ProjectScanMode.ByNameAscending,
        (data.iter_by_name_asc).take limit)
  | WhichPage.FirstPage (some ProjectScanMode.ByNameDescending) =>
      some (ProjectScanMode.ByNameDescending,
        (data.iter_by_name_desc).take limit)
  | WhichPage.FirstPage (some ProjectScanMode.ByMtimeDescending) =>
      some (ProjectScanMode.ByMtimeDescending,
        (data.iter_by_mtime_desc).take limit)
  | WhichPage.NextPage sel =>
      match projectScanModeFrom sel with
      | none => none
      | some list_mode =>
          some (list_mode,
            (match sel with
             | ProjectScanPageSelector.Name PaginationOrder.Ascending nm =>
                 data.iter_by_name_asc_from nm
             | ProjectScanPageSelector.Name PaginationOrder.Descending nm =>
                 data.iter_by_name_desc_from nm
             | ProjectScanPageSelector.MtimeName PaginationOrder.Ascending mt nm =>
                 data.iter_by_mtime_asc_from mt nm
             | ProjectScanPageSelector.MtimeName PaginationOrder.Descending mt nm =>
                 data.iter_by_mtime_desc_from mt nm).take limit)

/-- Modelled from the spec: the next-page-token attachment performed by the
dropshot library when serializing HttpResponseOkPage is not part of this
repository checkout (only the example handler is under src).  Following
section 4.4 of the spec: if fewer than the effective limit items were produced
the scan is exhausted and no next selector is returned; otherwise the next
page selector is built from the last drawn item under the effective mode via
ProjectScan.page_selector_for. -/
def page_response (data : ProjectCollection) (lim : Option Nat)
    (pp : WhichPage) :
    Option (ProjectScanMode × List Project × Option ProjectScanPageSelector) :=
  match example_list_projects data lim pp with
  | none => none
  | some (m, items) =>
      some (m, items,
        if items.length < effective_limit lim then none
        else
          match items.getLast? with
          | none => none
          | some last => some (ProjectScan.page_selector_for last m))

/-- The request a scanning client issues in mode m: a first-page request
naming m when it holds no selector yet, and a next-page request with the
selector from the previous page otherwise. -/
def request_for (m : ProjectScanMode) :
    Option ProjectScanPageSelector → WhichPage
  | none => WhichPage.FirstPage (some m)
  | some s => WhichPage.NextPage s

/-- Modelled from the spec: the client loop of section 8 ("repeatedly
following returned tokens with any limits").  Starting from a first-page
request in mode m, each step issues one request with the next per-page limit,
appends the returned items, and continues with the returned page selector
until a page carries no selector (or the supply of limits runs out). -/
def scan_pages (data : ProjectCollection) (m : ProjectScanMode) :
    Option ProjectScanPageSelector → List (Option Nat) → List Project
  | _, [] => []
  | sel, lim :: rest =>
      match page_response data lim (request_for m sel) with
      | none => []
      | some (_, items, next) =>
          items ++
            (match next with
             | none => []
             | some s => scan_pages data m (some s) rest)

/-- The full collection in a given scan mode's order: the unbounded iteration
the handler performs for a first-page request in that mode. -/
def full_list (data : ProjectCollection) : ProjectScanMode → List Project
  | ProjectScanMode.ByNameAscending => data.iter_by_name_asc
  | ProjectScanMode.ByNameDescending => data.iter_by_name_desc
  | ProjectScanMode.ByMtimeDescending => data.iter_by_mtime_desc

/-- BTreeMap invariant for by_name: keys strictly ascending. -/
def SortedByName (c : ProjectCollection) : Prop :=
  c.by_name.Pairwise (fun a b => strLt a.1 b.1)

/-- BTreeMap invariant for by_mtime: keys strictly ascending in the
lexicographic (mtime, name) order. -/
def SortedByMtime (c : ProjectCollection) : Prop :=
  c.by_mtime.Pairwise (fun a b => keyLt a.1 b.1)

/-- The maps are keyed exactly as main stores them: by_name under the
project's name, by_mtime under (mtime, name) (source lines 242-243). -/
def KeysConsistent (c : ProjectCollection) : Prop :=
  (∀ e ∈ c.by_name, e.1 = e.2.name) ∧
  (∀ e ∈ c.by_mtime, e.1 = (e.2.mtime, e.2.name))

/-- Both maps hold the same projects (as a multiset). -/
def MapsAgree (c : ProjectCollection) : Prop :=
  (c.by_name.map (fun e => e.2)).Perm (c.by_mtime.map (fun e => e.2))

/-- Full well-formedness of a collection as built by main. -/
def Wf (c : ProjectCollection) : Prop :=
  SortedByName c ∧ SortedByMtime c ∧ KeysConsistent c

instance (c : ProjectCollection) : Decidable (SortedByName c) :=
  inferInstanceAs (Decidable (c.by_name.Pairwise
    (fun a b : String × Project => strLt a.1 b.1)))

instance (c : ProjectCollection) : Decidable (SortedByMtime c) :=
  inferInstanceAs (Decidable (c.by_mtime.Pairwise
    (fun a b : (Int × String) × Project => keyLt a.1 b.1)))

instance (c : ProjectCollection) : Decidable (KeysConsistent c) :=
  inferInstanceAs (Decidable (_ ∧ _))

instance (c : ProjectCollection) : Decidable (Wf c) :=
  inferInstanceAs (Decidable (_ ∧ _ ∧ _))

/-- Insertion into a key-sorted association list, replacing the value when the
key is already present: this is BTreeMap::insert on the list model. -/
def insertSorted {K : Type} (ltb : K → K → Bool) (k : K) (v : Project) :
    List (K × Project) → List (K × Project)
  | [] => [(k, v)]
  | e :: rest =>
      if ltb k e.1 then (k, v) :: e :: rest
      else if ltb e.1 k then e :: insertSorted ltb k v rest
      else (k, v) :: rest

/-- The three-digit zero-padded decimal rendering used by main's
format("project{:03}", n) for n up to 999. -/
def pad3 (n : Nat) : String :=
  String.mk [Nat.digitChar (n / 100 % 10), Nat.digitChar (n / 10 % 10),
    Nat.digitChar (n % 10)]

/-- The name main gives project number n. -/
def projectName (n : Nat) : String := "project" ++ pad3 n

/-- The starting timestamp of main's seeding loop:
2020-07-13T17:35:00Z in milliseconds. -/
def T0 : Int := 1594661700000

/-- One iteration of main's seeding loop (source lines 227-244): build the
project for index n with the current timestamp and insert it into both maps. -/
def seedStep (n : Nat) (t : Int) (c : ProjectCollection) : ProjectCollection :=
  { by_name := insertSorted (fun a b => decide (strLt a b)) (projectName n)
      { name := projectName n, mtime := t } c.by_name,
    by_mtime := insertSorted (fun a b => decide (keyLt a b)) (t, projectName n)
      { name := projectName n, mtime := t } c.by_mtime }

/-- main's seeding loop: count iterations starting at index n, decrementing
the timestamp after every index not divisible by 10. -/
def seedLoop : Nat → Nat → Int → ProjectCollection → ProjectCollection
  | 0, _, _, c => c
  | count + 1, n, t, c =>
      seedLoop count (n + 1) (if n % 10 ≠ 0 then t - 1 else t) (seedStep n t c)

/-- The collection main builds: projects 1 through 999 (the Rust loop runs
for n in 1..1000). -/
def mainData : ProjectCollection :=
  seedLoop 999 1 T0 { by_name := [], by_mtime := [] }

/-- Concrete project used in witnesses: name "a", mtime 5. -/
def pA : Project := { name := "a", mtime := 5 }

/-- Concrete project used in witnesses: name "b", mtime 5 (same mtime as pA). -/
def pB : Project := { name := "b", mtime := 5 }

/-- Concrete project used in witnesses: name "c", mtime 3. -/
def pC : Project := { name := "c", mtime := 3 }

/-- A one-project collection. -/
def D1 : ProjectCollection :=
  { by_name := [("a", pA)], by_mtime := [((5, "a"), pA)] }

/-- A three-project collection in which pA and pB share an mtime. -/
def D3 : ProjectCollection :=
  { by_name := [("a", pA), ("b", pB), ("c", pC)],
    by_mtime := [((3, "c"), pC), ((5, "a"), pA), ((5, "b"), pB)] }

/-! ## Order facts about the embedded key orders -/

theorem strLt_asymm (a b : String) (h : strLt a b) : ¬ strLt b a := by
  intro h2
  exact asymm (show b.data < a.data from h2) (show a.data < b.data from h)

theorem strLt_total (a b : String) (h : a ≠ b) : strLt a b ∨ strLt b a := by
  rcases lt_trichotomy a.data b.data with h1 | h1 | h1
  · exact Or.inl h1
  · exact absurd (String.ext h1) h
  · exact Or.inr h1

theorem keyLt_asymm (a b : Int × String) (h : keyLt a b) : ¬ keyLt b a := by
  intro h2
  rcases h with h | ⟨he, hs⟩ <;> rcases h2 with h2 | ⟨he2, hs2⟩
  · omega
  · omega
  · omega
  · exact strLt_asymm _ _ hs hs2

theorem keyLt_total (a b : Int × String) (h : a ≠ b) : keyLt a b ∨ keyLt b a := by
  rcases lt_trichotomy a.1 b.1 with h1 | h1 | h1
  · exact Or.inl (Or.inl h1)
  · have hne : a.2 ≠ b.2 := by
      intro h2
      exact h (Prod.ext h1 h2)
    rcases strLt_total a.2 b.2 hne with h2 | h2
    · exact Or.inl (Or.inr ⟨h1, h2⟩)
    · exact Or.inr (Or.inr ⟨h1.symm, h2⟩)
  · exact Or.inr (Or.inl h1)

/-! ## Generic facts about filters over sorted association lists -/

/-- In a list whose keys are strictly sorted by r, filtering for keys
strictly beyond the key at position i yields exactly the tail after i: the
heart of the no-skip/no-duplicate pagination property. -/
theorem filter_boundary {K : Type} (r : K → K → Prop) (rb : K → K → Bool)
    (hrb : ∀ a b, rb a b = true ↔ r a b)
    (hasym : ∀ a b, r a b → ¬ r b a)
    (l : List (K × Project)) (hp : l.Pairwise (fun a b => r a.1 b.1)) :
    ∀ (i : Nat) (hi : i < l.length) (bnd : K), bnd = (l.get ⟨i, hi⟩).1 →
      l.filter (fun e => rb bnd e.1) = l.drop (i + 1) := by
  induction l with
  | nil => intro i hi; exact absurd hi (Nat.not_lt_zero i)
  | cons e rest ih =>
      rcases List.pairwise_cons.mp hp with ⟨hhead, htail⟩
      intro i hi bnd hbnd
      cases i with
      | zero =>
          have hb : bnd = e.1 := hbnd
          have hne : rb bnd e.1 = false := by
            rw [hb]
            by_contra hcon
            have : rb e.1 e.1 = true := by
              cases hx : rb e.1 e.1
              · exact absurd hx hcon
              · rfl
            exact hasym e.1 e.1 ((hrb _ _).mp this) ((hrb _ _).mp this)
          have hrest : rest.filter (fun x => rb bnd x.1) = rest :=
            List.filter_eq_self.mpr (fun a ha => (hrb _ _).mpr (hb ▸ hhead a ha))
          simp [List.filter_cons, hne, hrest]
      | succ j =>
          have hj : j < rest.length := Nat.lt_of_succ_lt_succ hi
          have hget : (e :: rest).get ⟨j + 1, hi⟩ = rest.get ⟨j, hj⟩ := rfl
          have hmem : rest.get ⟨j, hj⟩ ∈ rest := rest.get_mem j hj
          have hre : r e.1 bnd := by
            rw [hbnd, hget]
            exact hhead _ hmem
          have hne : rb bnd e.1 = false := by
            by_contra hcon
            have : rb bnd e.1 = true := by
              cases hx : rb bnd e.1
              · exact absurd hx hcon
              · rfl
            exact hasym _ _ hre ((hrb _ _).mp this)
          have htl := ih htail j hj bnd (by rw [hbnd, hget])
          simp only [List.filter_cons, hne, Bool.false_eq_true, if_false,
            List.drop_succ_cons]
          exact htl

/-- Mapping after filtering on a precomposed predicate equals filtering after
mapping. -/
theorem map_filter_comp {α β : Type} (f : α → β) (p : β → Bool) (l : List α) :
    (l.filter (fun a => p (f a))).map f = (l.map f).filter p := by
  induction l with
  | nil => rfl
  | cons x xs ih =>
      cases hx : p (f x) <;>
        simp [List.filter_cons, List.map_cons, hx, ih]

/-- Selector/mode round-trip shared by several results: deriving the scan mode
from the page selector built for an item under mode m yields m. -/
theorem modeFrom_page_selector_for (m : ProjectScanMode) (p : Project) :
    projectScanModeFrom (ProjectScan.page_selector_for p m) = some m := by
  cases m <;> rfl

/-- The by_name bounded iterators are filters of the corresponding full
iterations by the projects' own names. -/
theorem iter_by_name_from_filter (data : ProjectCollection)
    (h : ∀ e ∈ data.by_name, e.1 = e.2.name) (bnd : String) :
    data.iter_by_name_asc_from bnd
        = (data.iter_by_name_asc).filter (fun p => decide (strLt bnd p.name)) ∧
    data.iter_by_name_desc_from bnd
        = (data.iter_by_name_desc).filter (fun p => decide (strLt p.name bnd)) := by
  have h1 : data.by_name.filter (fun e => decide (strLt bnd e.1))
      = data.by_name.filter (fun e => decide (strLt bnd e.2.name)) :=
    List.filter_congr (fun e he => by rw [h e he])
  have h2 : data.by_name.filter (fun e => decide (strLt e.1 bnd))
      = data.by_name.filter (fun e => decide (strLt e.2.name bnd)) :=
    List.filter_congr (fun e he => by rw [h e he])
  constructor
  · show (data.by_name.filter (fun e => decide (strLt bnd e.1))).map (fun e => e.2) = _
    rw [h1]
    exact map_filter_comp (fun e => e.2) (fun q => decide (strLt bnd q.name))
      data.by_name
  · show ((data.by_name.filter (fun e => decide (strLt e.1 bnd))).map
        (fun e => e.2)).reverse = _
    rw [h2]
    have h3 : (data.by_name.filter
          (fun e => decide (strLt e.2.name bnd))).map (fun e => e.2)
        = (data.by_name.map (fun e => e.2)).filter
            (fun p => decide (strLt p.name bnd)) :=
      map_filter_comp (fun e => e.2) (fun q => decide (strLt q.name bnd))
        data.by_name
    rw [h3]
    exact (List.filter_reverse _ _).symm

/-- The by_mtime bounded iterators are filters of the corresponding full
iterations by the projects' own (mtime, name) tuples. -/
theorem iter_by_mtime_from_filter (data : ProjectCollection)
    (h : ∀ e ∈ data.by_mtime, e.1 = (e.2.mtime, e.2.name)) (mt : Int)
    (nm : String) :
    data.iter_by_mtime_asc_from mt nm
        = (data.iter_by_mtime_asc).filter
            (fun p => decide (keyLt (mt, nm) (p.mtime, p.name))) ∧
    data.iter_by_mtime_desc_from mt nm
        = (data.iter_by_mtime_desc).filter
            (fun p => decide (keyLt (p.mtime, p.name) (mt, nm))) := by
  have h1 : data.by_mtime.filter (fun e => decide (keyLt (mt, nm) e.1))
      = data.by_mtime.filter
          (fun e => decide (keyLt (mt, nm) (e.2.mtime, e.2.name))) :=
    List.filter_congr (fun e he => by rw [h e he])
  have h2 : data.by_mtime.filter (fun e => decide (keyLt e.1 (mt, nm)))
      = data.by_mtime.filter
          (fun e => decide (keyLt (e.2.mtime, e.2.name) (mt, nm))) :=
    List.filter_congr (fun e he => by rw [h e he])
  constructor
  · show (data.by_mtime.filter
        (fun e => decide (keyLt (mt, nm) e.1))).map (fun e => e.2) = _
    rw [h1]
    exact map_filter_comp (fun e => e.2)
      (fun q => decide (keyLt (mt, nm) (q.mtime, q.name))) data.by_mtime
  · show ((data.by_mtime.filter
        (fun e => decide (keyLt e.1 (mt, nm)))).map (fun e => e.2)).reverse = _
    rw [h2]
    have h3 : (data.by_mtime.filter
          (fun e => decide (keyLt (e.2.mtime, e.2.name) (mt, nm)))).map
            (fun e => e.2)
        = (data.by_mtime.map (fun e => e.2)).filter
            (fun p => decide (keyLt (p.mtime, p.name) (mt, nm))) :=
      map_filter_comp (fun e => e.2)
        (fun q => decide (keyLt (q.mtime, q.name) (mt, nm))) data.by_mtime
    rw [h3]
    exact (List.filter_reverse _ _).symm

/-- Claim C7: for every boundary key tuple, each bounded iterator yields
exactly the items whose sort key lies strictly beyond the boundary in the
given direction, in that direction's order (it is the filter of the full
direction-ordered iteration), and a boundary at or past the end of the data
yields a well-formed empty result (the iterators are total functions with no
error outcome). -/
theorem C7_bounded_iterators_are_strict_ranges (data : ProjectCollection)
    (h : KeysConsistent data) :
    (∀ bnd, data.iter_by_name_asc_from bnd
        = (data.iter_by_name_asc).filter (fun p => decide (strLt bnd p.name))) ∧
    (∀ bnd, data.iter_by_name_desc_from bnd
        = (data.iter_by_name_desc).filter (fun p => decide (strLt p.name bnd))) ∧
    (∀ mt nm, data.iter_by_mtime_asc_from mt nm
        = (data.iter_by_mtime_asc).filter
            (fun p => decide (keyLt (mt, nm) (p.mtime, p.name)))) ∧
    (∀ mt nm, data.iter_by_mtime_desc_from mt nm
        = (data.iter_by_mtime_desc).filter
            (fun p => decide (keyLt (p.mtime, p.name) (mt, nm)))) ∧
    (∀ bnd, (∀ p ∈ data.iter_by_name_asc, ¬ strLt bnd p.name) →
        data.iter_by_name_asc_from bnd = []) := by
  refine ⟨fun bnd => (iter_by_name_from_filter data h.1 bnd).1,
    fun bnd => (iter_by_name_from_filter data h.1 bnd).2,
    fun mt nm => (iter_by_mtime_from_filter data h.2 mt nm).1,
    fun mt nm => (iter_by_mtime_from_filter data h.2 mt nm).2,
    fun bnd hall => ?_⟩
  rw [(iter_by_name_from_filter data h.1 bnd).1]
  exact List.filter_eq_nil_iff.mpr
    (fun p hp => by simpa using hall p hp)

/-- Witness for C7 at the concrete collection D3 and boundary "a". -/
theorem C7_witness :
    D3.iter_by_name_asc_from "a"
      = (D3.iter_by_name_asc).filter (fun p => decide (strLt "a" p.name)) :=
  (C7_bounded_iterators_are_strict_ranges D3 ⟨by decide, by decide⟩).1 "a"

/-- Claim C8: for every scan mode m and every item, deriving the scan mode
from the page selector built for the item under m yields m again; the
derivation projectScanModeFrom is a function, so every selector produced by
ProjectScan.page_selector_for maps to exactly one mode, its originating
mode. -/
theorem C8_selector_mode_roundtrip :
    ∀ (m : ProjectScanMode) (p : Project),
      projectScanModeFrom (ProjectScan.page_selector_for p m) = some m :=
  fun m p => modeFrom_page_selector_for m p

/-- Claim C4: a first-page request with no scan mode gives a result (resolved
mode, items, and next selector) identical to a first-page request naming the
default mode by-name-ascending, for every collection and limit. -/
theorem C4_no_mode_equals_default_mode (data : ProjectCollection)
    (lim : Option Nat) :
    page_response data lim (WhichPage.FirstPage none)
      = page_response data lim
          (WhichPage.FirstPage (some ProjectScanMode.ByNameAscending)) := rfl

/-- Claim C10: the handler never produces an error value; every request
yields a page except exactly the requests whose decoded selector is the
unsupported MtimeName/Ascending combination, where the source panics
(modelled by none).  There is no HttpError-returning path at all. -/
theorem C10_handler_total_except_panic (data : ProjectCollection)
    (lim : Option Nat) (pp : WhichPage) :
    example_list_projects data lim pp = none ↔
      ∃ mt nm, pp = WhichPage.NextPage
        (ProjectScanPageSelector.MtimeName PaginationOrder.Ascending mt nm) := by
  constructor
  · intro h
    cases pp with
    | FirstPage om =>
        cases om with
        | none => simp [example_list_projects] at h
        | some m => cases m <;> simp [example_list_projects] at h
    | NextPage sel =>
        cases sel with
        | Name ord nm =>
            cases ord <;>
              simp [example_list_projects, projectScanModeFrom] at h
        | MtimeName ord mt nm =>
            cases ord with
            | Ascending => exact ⟨mt, nm, rfl⟩
            | Descending =>
                simp [example_list_projects, projectScanModeFrom] at h
  · rintro ⟨mt, nm, rfl⟩
    rfl

/-- Claim C6 (code evaluation): on a next-page request whose selector is the
MtimeName/Ascending combination the handler reaches the source's
"unsupported mode" panic (modelled as none) instead of returning an error
response, and the mode derivation is undefined (none) exactly on that
selector shape. -/
theorem C6_unsupported_selector_panics :
    example_list_projects D1 (some 1)
        (WhichPage.NextPage
          (ProjectScanPageSelector.MtimeName PaginationOrder.Ascending 0 "a"))
      = none
    ∧ projectScanModeFrom
        (ProjectScanPageSelector.MtimeName PaginationOrder.Ascending 0 "a")
      = none
    ∧ ∀ sel, projectScanModeFrom sel = none →
        ∃ mt nm, sel = ProjectScanPageSelector.MtimeName
          PaginationOrder.Ascending mt nm := by
  refine ⟨rfl, rfl, fun sel h => ?_⟩
  cases sel with
  | Name ord nm => cases ord <;> cases h
  | MtimeName ord mt nm =>
      cases ord with
      | Ascending => exact ⟨mt, nm, rfl⟩
      | Descending => cases h

/-- Claim C5 (code evaluation): under by-mtime-descending, the two projects
pA and pB share an mtime but are returned with pB (the larger name) first,
i.e. in descending primary-key order within the tie, both by the full
iteration and by a limit-1 paginated scan, which still returns every project
exactly once in that same stable order. -/
theorem C5_ties_are_name_descending :
    pA.mtime = pB.mtime ∧ strLt pA.name pB.name ∧
    D3.iter_by_mtime_desc = [pB, pA, pC] ∧
    scan_pages D3 ProjectScanMode.ByMtimeDescending none
      [some 1, some 1, some 1] = [pB, pA, pC] := by
  refine ⟨rfl, by decide, rfl, by decide⟩

/-- Claim C3: the effective page limit is the caller-supplied limit (at least
1 in Rust since the query parameter is a NonZeroU64) silently truncated to
MAX_LIMIT = 100, never rejected; an absent limit yields DEFAULT_LIMIT = 5;
and every successful page holds at most that many items. -/
theorem C3_limit_clamped (data : ProjectCollection) (lim : Option Nat)
    (pp : WhichPage) (hl : ∀ v, lim = some v → 1 ≤ v) (m : ProjectScanMode)
    (items : List Project)
    (h : example_list_projects data lim pp = some (m, items)) :
    effective_limit lim = min (lim.getD DEFAULT_LIMIT) MAX_LIMIT ∧
    1 ≤ effective_limit lim ∧
    effective_limit lim ≤ MAX_LIMIT ∧
    (lim = none → effective_limit lim = DEFAULT_LIMIT) ∧
    items.length ≤ effective_limit lim := by
  refine ⟨?_, ?_, ?_, ?_, ?_⟩
  · simp only [effective_limit, DEFAULT_LIMIT, MAX_LIMIT]
    split <;> omega
  · cases lim with
    | none => decide
    | some v =>
        have hv := hl v rfl
        simp only [effective_limit, DEFAULT_LIMIT, MAX_LIMIT, Option.getD_some]
        split <;> omega
  · simp only [effective_limit, DEFAULT_LIMIT, MAX_LIMIT]
    split <;> omega
  · intro hnone
    subst hnone
    decide
  · cases pp with
    | FirstPage om =>
        cases om with
        | none =>
            simp only [example_list_projects, Option.some.injEq,
              Prod.mk.injEq] at h
            rw [← h.2]
            exact List.length_take_le _ _
        | some mm =>
            cases mm <;>
              (simp only [example_list_projects, Option.some.injEq,
                Prod.mk.injEq] at h;
               rw [← h.2];
               exact List.length_take_le _ _)
    | NextPage sel =>
        cases sel with
        | Name ord nm =>
            cases ord <;>
              (simp only [example_list_projects, projectScanModeFrom,
                Option.some.injEq, Prod.mk.injEq] at h;
               rw [← h.2];
               exact List.length_take_le _ _)
        | MtimeName ord mt nm =>
            cases ord with
            | Ascending => exact Option.noConfusion h
            | Descending =>
                simp only [example_list_projects, projectScanModeFrom,
                  Option.some.injEq, Prod.mk.injEq] at h
                rw [← h.2]
                exact List.length_take_le _ _

/-- Witness for C3: a request with limit 250 on the one-project collection. -/
theorem C3_witness :
    effective_limit (some 250)
        = min ((some 250 : Option Nat).getD DEFAULT_LIMIT) MAX_LIMIT ∧
    1 ≤ effective_limit (some 250) ∧
    effective_limit (some 250) ≤ MAX_LIMIT ∧
    ((some 250 : Option Nat) = none → effective_limit (some 250) = DEFAULT_LIMIT) ∧
    ([pA] : List Project).length ≤ effective_limit (some 250) :=
  C3_limit_clamped D1 (some 250) (WhichPage.FirstPage none)
    (fun v hv => by injection hv with hv2; omega)
    ProjectScanMode.ByNameAscending [pA] (by decide)

/-- Claim C2 (amended, proved against the spec-modelled token attachment): a
page with fewer items than the effective limit carries no next selector, and
a page with exactly the effective limit carries the selector built from the
last drawn item under the effective mode, even when the collection ends
exactly at that item. -/
theorem C2_exhaustion_marker (data : ProjectCollection) (lim : Option Nat)
    (pp : WhichPage) (m : ProjectScanMode) (items : List Project)
    (next : Option ProjectScanPageSelector)
    (h : page_response data lim pp = some (m, items, next)) :
    (items.length < effective_limit lim → next = none) ∧
    (items.length = effective_limit lim →
      ∀ last, items.getLast? = some last →
        next = some (ProjectScan.page_selector_for last m)) := by
  unfold page_response at h
  cases he : example_list_projects data lim pp with
  | none => rw [he] at h; cases h
  | some val =>
      obtain ⟨m2, items2⟩ := val
      rw [he] at h
      simp only [Option.some.injEq, Prod.mk.injEq] at h
      obtain ⟨hm, hitems, hnext⟩ := h
      subst hm
      subst hitems
      constructor
      · intro hlt
        rw [← hnext, if_pos hlt]
      · intro hlen last hlast
        rw [← hnext, if_neg (by omega), hlast]

/-- Counterexample for C2 as stated: with one project and limit 1, the only
page holds exactly the effective limit of items and the collection ends
exactly at that item, yet the page still carries a next selector. -/
theorem C2_counterexample_full_final_page :
    page_response D1 (some 1) (WhichPage.FirstPage none)
      = some (ProjectScanMode.ByNameAscending, [pA],
          some (ProjectScanPageSelector.Name PaginationOrder.Ascending "a"))
    ∧ effective_limit (some 1) = 1
    ∧ (full_list D1 ProjectScanMode.ByNameAscending).length = 1 := by
  decide

/-- Witness for C2 at the one-project collection with limit 1. -/
theorem C2_exhaustion_marker_witness :
    (([pA] : List Project).length < effective_limit (some 1) →
      (some (ProjectScanPageSelector.Name PaginationOrder.Ascending "a")
        : Option ProjectScanPageSelector) = none) ∧
    (([pA] : List Project).length = effective_limit (some 1) →
      ∀ last, ([pA] : List Project).getLast? = some last →
        (some (ProjectScanPageSelector.Name PaginationOrder.Ascending "a")
          : Option ProjectScanPageSelector)
          = some (ProjectScan.page_selector_for last
              ProjectScanMode.ByNameAscending)) :=
  C2_exhaustion_marker D1 (some 1) (WhichPage.FirstPage none)
    ProjectScanMode.ByNameAscending [pA]
    (some (ProjectScanPageSelector.Name PaginationOrder.Ascending "a"))
    (by decide)

/-! ## The no-duplicate / no-skip scan property (claim C1) -/

/-- Reducing page_response once the handler's value is known. -/
theorem page_response_eq (data : ProjectCollection) (lim : Option Nat)
    (pp : WhichPage) (m : ProjectScanMode) (items : List Project)
    (h : example_list_projects data lim pp = some (m, items)) :
    page_response data lim pp
      = some (m, items,
          if items.length < effective_limit lim then none
          else
            match items.getLast? with
            | none => none
            | some last => some (ProjectScan.page_selector_for last m)) := by
  unfold page_response
  rw [h]

/-- Reducing one step of scan_pages when the page carries no next selector. -/
theorem scan_pages_cons_none (data : ProjectCollection) (m : ProjectScanMode)
    (sel : Option ProjectScanPageSelector) (lim : Option Nat)
    (rest : List (Option Nat)) (m2 : ProjectScanMode) (items : List Project)
    (h : page_response data lim (request_for m sel) = some (m2, items, none)) :
    scan_pages data m sel (lim :: rest) = items := by
  simp only [scan_pages]
  rw [h]
  show items ++ ([] : List Project) = items
  exact List.append_nil items

/-- Reducing one step of scan_pages when the page carries a next selector. -/
theorem scan_pages_cons_some (data : ProjectCollection) (m : ProjectScanMode)
    (sel : Option ProjectScanPageSelector) (lim : Option Nat)
    (rest : List (Option Nat)) (m2 : ProjectScanMode) (items : List Project)
    (s : ProjectScanPageSelector)
    (h : page_response data lim (request_for m sel)
        = some (m2, items, some s)) :
    scan_pages data m sel (lim :: rest)
      = items ++ scan_pages data m (some s) rest := by
  simp only [scan_pages]
  rw [h]

/-- The last element of one page drawn from position s with a positive
effective limit that fits in the list. -/
theorem getLast_take_drop (L : List Project) (s eff : Nat) (heff : 1 ≤ eff)
    (hle : s + eff ≤ L.length) (j : Nat) (hj : j = s + eff - 1)
    (hjlt : j < L.length) :
    ((L.drop s).take eff).getLast? = some (L.get ⟨j, hjlt⟩) := by
  rw [List.getLast?_eq_getElem?]
  have hlen : ((L.drop s).take eff).length = eff := by
    rw [List.length_take, List.length_drop]
    omega
  rw [hlen, List.getElem?_take, if_pos (by omega : eff - 1 < eff),
    List.getElem?_drop]
  have hidx : s + (eff - 1) = j := by omega
  rw [hidx]
  exact List.getElem?_eq_getElem hjlt

/-- One next-page step under by-name-ascending: resuming from the selector
built for the item at index i yields the page starting right after it. -/
theorem step_name_asc (data : ProjectCollection) (hs : SortedByName data)
    (hk : ∀ e ∈ data.by_name, e.1 = e.2.name) (i : Nat)
    (hi : i < (data.iter_by_name_asc).length) (lim : Option Nat) :
    example_list_projects data lim
        (WhichPage.NextPage (ProjectScan.page_selector_for
          ((data.iter_by_name_asc).get ⟨i, hi⟩) ProjectScanMode.ByNameAscending))
      = some (ProjectScanMode.ByNameAscending,
          ((data.iter_by_name_asc).drop (i + 1)).take (effective_limit lim)) := by
  have hi2 : i < data.by_name.length := by
    simpa [ProjectCollection.iter_by_name_asc] using hi
  have hget : (data.iter_by_name_asc).get ⟨i, hi⟩
      = (data.by_name.get ⟨i, hi2⟩).2 := by
    simp [ProjectCollection.iter_by_name_asc, List.get_eq_getElem,
      List.getElem_map]
  have hkey : (data.by_name.get ⟨i, hi2⟩).2.name
      = (data.by_name.get ⟨i, hi2⟩).1 :=
    (hk _ (data.by_name.get_mem i hi2)).symm
  have hfil := filter_boundary strLt (fun a b => decide (strLt a b))
    (fun a b => by simp) strLt_asymm data.by_name hs i hi2
    ((data.iter_by_name_asc).get ⟨i, hi⟩).name (by rw [hget, hkey])
  have hiter : data.iter_by_name_asc_from
      ((data.iter_by_name_asc).get ⟨i, hi⟩).name
      = (data.iter_by_name_asc).drop (i + 1) := by
    show (data.by_name.filter (fun e => decide (strLt _ e.1))).map (fun e => e.2)
        = _
    rw [hfil]
    exact List.map_drop _ _ _
  show some (ProjectScanMode.ByNameAscending,
      (data.iter_by_name_asc_from
        ((data.iter_by_name_asc).get ⟨i, hi⟩).name).take (effective_limit lim))
    = _
  rw [hiter]


/-- The by-name-descending bounded iterator resumed at the key of the element
at position i of the reversed map is the tail after position i. -/
theorem iter_name_desc_from_drop (data : ProjectCollection)
    (hs : SortedByName data) (i : Nat)
    (hi2 : i < (data.by_name.reverse).length) (nm : String)
    (hnm : nm = ((data.by_name.reverse).get ⟨i, hi2⟩).1) :
    data.iter_by_name_desc_from nm = (data.iter_by_name_desc).drop (i + 1) := by
  have hL : data.iter_by_name_desc
      = (data.by_name.reverse).map (fun e => e.2) := (List.map_reverse _ _).symm
  have hp : (data.by_name.reverse).Pairwise (fun a b => strLt b.1 a.1) :=
    List.pairwise_reverse.mpr hs
  have hfil := filter_boundary (fun a b => strLt b a)
    (fun a b => decide (strLt b a)) (fun a b => by simp)
    (fun a b h => strLt_asymm b a h) (data.by_name.reverse) hp i hi2 nm hnm
  have hfil2 : (data.by_name.reverse).filter (fun e => decide (strLt e.1 nm))
      = (data.by_name.reverse).drop (i + 1) := hfil
  calc data.iter_by_name_desc_from nm
      = ((data.by_name.filter
          (fun e => decide (strLt e.1 nm))).reverse).map (fun e => e.2) :=
        (List.map_reverse _ _).symm
    _ = ((data.by_name.reverse).filter
          (fun e => decide (strLt e.1 nm))).map (fun e => e.2) := by
        rw [List.filter_reverse]
    _ = ((data.by_name.reverse).drop (i + 1)).map (fun e => e.2) := by
        rw [hfil2]
    _ = ((data.by_name.reverse).map (fun e => e.2)).drop (i + 1) :=
        List.map_drop _ _ _
    _ = (data.iter_by_name_desc).drop (i + 1) := by rw [← hL]

/-- One next-page step under by-name-descending. -/
theorem step_name_desc (data : ProjectCollection) (hs : SortedByName data)
    (hk : ∀ e ∈ data.by_name, e.1 = e.2.name) (i : Nat)
    (hi : i < (data.iter_by_name_desc).length) (lim : Option Nat) :
    example_list_projects data lim
        (WhichPage.NextPage (ProjectScan.page_selector_for
          ((data.iter_by_name_desc).get ⟨i, hi⟩)
          ProjectScanMode.ByNameDescending))
      = some (ProjectScanMode.ByNameDescending,
          ((data.iter_by_name_desc).drop (i + 1)).take (effective_limit lim)) := by
  have hi2 : i < (data.by_name.reverse).length := by
    simpa [ProjectCollection.iter_by_name_desc] using hi
  have hget : (data.iter_by_name_desc).get ⟨i, hi⟩
      = ((data.by_name.reverse).get ⟨i, hi2⟩).2 := by
    simp [ProjectCollection.iter_by_name_desc, List.get_eq_getElem,
      List.getElem_reverse, List.getElem_map]
  have hk2 : ∀ e ∈ data.by_name.reverse, e.1 = e.2.name :=
    fun e he => hk e (List.mem_reverse.mp he)
  have hnm : ((data.iter_by_name_desc).get ⟨i, hi⟩).name
      = ((data.by_name.reverse).get ⟨i, hi2⟩).1 := by
    rw [hget]
    exact (hk2 _ ((data.by_name.reverse).get_mem i hi2)).symm
  have hiter := iter_name_desc_from_drop data hs i hi2
    ((data.iter_by_name_desc).get ⟨i, hi⟩).name hnm
  show some (ProjectScanMode.ByNameDescending,
      (data.iter_by_name_desc_from
        ((data.iter_by_name_desc).get ⟨i, hi⟩).name).take
        (effective_limit lim)) = _
  rw [hiter]

/-- The by-mtime-descending bounded iterator resumed at the key of the
element at position i of the reversed map is the tail after position i. -/
theorem iter_mtime_desc_from_drop (data : ProjectCollection)
    (hs : SortedByMtime data) (i : Nat)
    (hi2 : i < (data.by_mtime.reverse).length) (mt : Int) (nm : String)
    (hnm : (mt, nm) = ((data.by_mtime.reverse).get ⟨i, hi2⟩).1) :
    data.iter_by_mtime_desc_from mt nm
      = (data.iter_by_mtime_desc).drop (i + 1) := by
  have hL : data.iter_by_mtime_desc
      = (data.by_mtime.reverse).map (fun e => e.2) :=
    (List.map_reverse _ _).symm
  have hp : (data.by_mtime.reverse).Pairwise (fun a b => keyLt b.1 a.1) :=
    List.pairwise_reverse.mpr hs
  have hfil := filter_boundary (fun a b => keyLt b a)
    (fun a b => decide (keyLt b a)) (fun a b => by simp)
    (fun a b h => keyLt_asymm b a h) (data.by_mtime.reverse) hp i hi2
    (mt, nm) hnm
  have hfil2 : (data.by_mtime.reverse).filter
      (fun e => decide (keyLt e.1 (mt, nm)))
      = (data.by_mtime.reverse).drop (i + 1) := hfil
  calc data.iter_by_mtime_desc_from mt nm
      = ((data.by_mtime.filter
          (fun e => decide (keyLt e.1 (mt, nm)))).reverse).map (fun e => e.2) :=
        (List.map_reverse _ _).symm
    _ = ((data.by_mtime.reverse).filter
          (fun e => decide (keyLt e.1 (mt, nm)))).map (fun e => e.2) := by
        rw [List.filter_reverse]
    _ = ((data.by_mtime.reverse).drop (i + 1)).map (fun e => e.2) := by
        rw [hfil2]
    _ = ((data.by_mtime.reverse).map (fun e => e.2)).drop (i + 1) :=
        List.map_drop _ _ _
    _ = (data.iter_by_mtime_desc).drop (i + 1) := by rw [← hL]

/-- One next-page step under by-mtime-descending: the boundary is the full
(mtime, name) tuple of the item at index i, so the step is exact even when
several items share an mtime. -/
theorem step_mtime_desc (data : ProjectCollection) (hs : SortedByMtime data)
    (hk : ∀ e ∈ data.by_mtime, e.1 = (e.2.mtime, e.2.name)) (i : Nat)
    (hi : i < (data.iter_by_mtime_desc).length) (lim : Option Nat) :
    example_list_projects data lim
        (WhichPage.NextPage (ProjectScan.page_selector_for
          ((data.iter_by_mtime_desc).get ⟨i, hi⟩)
          ProjectScanMode.ByMtimeDescending))
      = some (ProjectScanMode.ByMtimeDescending,
          ((data.iter_by_mtime_desc).drop (i + 1)).take (effective_limit lim)) := by
  have hi2 : i < (data.by_mtime.reverse).length := by
    simpa [ProjectCollection.iter_by_mtime_desc] using hi
  have hget : (data.iter_by_mtime_desc).get ⟨i, hi⟩
      = ((data.by_mtime.reverse).get ⟨i, hi2⟩).2 := by
    simp [ProjectCollection.iter_by_mtime_desc, List.get_eq_getElem,
      List.getElem_reverse, List.getElem_map]
  have hk2 : ∀ e ∈ data.by_mtime.reverse, e.1 = (e.2.mtime, e.2.name) :=
    fun e he => hk e (List.mem_reverse.mp he)
  have hnm : (((data.iter_by_mtime_desc).get ⟨i, hi⟩).mtime,
        ((data.iter_by_mtime_desc).get ⟨i, hi⟩).name)
      = ((data.by_mtime.reverse).get ⟨i, hi2⟩).1 := by
    rw [hget]
    exact (hk2 _ ((data.by_mtime.reverse).get_mem i hi2)).symm
  have hiter := iter_mtime_desc_from_drop data hs i hi2
    ((data.iter_by_mtime_desc).get ⟨i, hi⟩).mtime
    ((data.iter_by_mtime_desc).get ⟨i, hi⟩).name hnm
  show some (ProjectScanMode.ByMtimeDescending,
      (data.iter_by_mtime_desc_from
        ((data.iter_by_mtime_desc).get ⟨i, hi⟩).mtime
        ((data.iter_by_mtime_desc).get ⟨i, hi⟩).name).take
        (effective_limit lim)) = _
  rw [hiter]

/-- Continuing a scan from the selector built for the item at index i of the
mode's full listing returns exactly the rest of the listing, given enough
pages. -/
theorem scan_pages_drop (data : ProjectCollection) (m : ProjectScanMode)
    (L : List Project)
    (hstep : ∀ (i : Nat) (hi : i < L.length) (lim : Option Nat),
      example_list_projects data lim
          (WhichPage.NextPage (ProjectScan.page_selector_for (L.get ⟨i, hi⟩) m))
        = some (m, (L.drop (i + 1)).take (effective_limit lim))) :
    ∀ (limits : List (Option Nat)), (∀ l ∈ limits, 1 ≤ effective_limit l) →
      ∀ (i : Nat) (hi : i < L.length), L.length - (i + 1) ≤ limits.length →
        scan_pages data m
            (some (ProjectScan.page_selector_for (L.get ⟨i, hi⟩) m)) limits
          = L.drop (i + 1) := by
  intro limits
  induction limits with
  | nil =>
      intro _ i hi hlen
      simp only [List.length_nil] at hlen
      simp only [scan_pages]
      exact (List.drop_eq_nil_of_le (by omega)).symm
  | cons lim rest ih =>
      intro hl i hi hlen
      have heff : 1 ≤ effective_limit lim := hl lim (List.mem_cons_self lim rest)
      have hx := page_response_eq data lim
        (request_for m (some (ProjectScan.page_selector_for (L.get ⟨i, hi⟩) m)))
        m ((L.drop (i + 1)).take (effective_limit lim)) (hstep i hi lim)
      by_cases hcase :
          ((L.drop (i + 1)).take (effective_limit lim)).length
            < effective_limit lim
      · rw [if_pos hcase] at hx
        rw [scan_pages_cons_none data m _ lim rest m _ hx]
        have hshort : L.length - (i + 1) ≤ effective_limit lim := by
          have := List.length_take (effective_limit lim) (L.drop (i + 1))
          rw [List.length_drop] at this
          omega
        exact List.take_of_length_le (by rw [List.length_drop]; omega)
      · rw [if_neg hcase] at hx
        have hfit : i + 1 + effective_limit lim ≤ L.length := by
          have := List.length_take (effective_limit lim) (L.drop (i + 1))
          rw [List.length_drop] at this
          omega
        have hi2 : i + effective_limit lim < L.length := by omega
        have hlast := getLast_take_drop L (i + 1) (effective_limit lim) heff
          hfit (i + effective_limit lim) (by omega) hi2
        rw [hlast] at hx
        rw [scan_pages_cons_some data m _ lim rest m _ _ hx]
        have hrec := ih (fun l hlm => hl l (List.mem_cons_of_mem lim hlm))
          (i + effective_limit lim) hi2
          (by simp only [List.length_cons] at hlen; omega)
        rw [hrec]
        have hsplit : (L.drop (i + 1)).take (effective_limit lim)
            ++ (L.drop (i + 1)).drop (effective_limit lim) = L.drop (i + 1) :=
          List.take_append_drop _ _
        have hdd : (L.drop (i + 1)).drop (effective_limit lim)
            = L.drop (i + effective_limit lim + 1) := by
          rw [List.drop_drop]
          congr 1
          omega
        rw [hdd] at hsplit
        exact hsplit

/-- A scan from the first page in mode m returns the whole listing L, given
enough pages. -/
theorem scan_pages_complete (data : ProjectCollection) (m : ProjectScanMode)
    (L : List Project)
    (hfirst : ∀ lim, example_list_projects data lim
        (WhichPage.FirstPage (some m))
        = some (m, L.take (effective_limit lim)))
    (hstep : ∀ (i : Nat) (hi : i < L.length) (lim : Option Nat),
      example_list_projects data lim
          (WhichPage.NextPage (ProjectScan.page_selector_for (L.get ⟨i, hi⟩) m))
        = some (m, (L.drop (i + 1)).take (effective_limit lim)))
    (limits : List (Option Nat))
    (hl : ∀ l ∈ limits, 1 ≤ effective_limit l)
    (hn : L.length ≤ limits.length) :
    scan_pages data m none limits = L := by
  cases limits with
  | nil =>
      have hlen0 : L.length ≤ 0 := by simpa using hn
      have hL : L = [] := List.length_eq_zero.mp (by omega)
      simp [scan_pages, hL]
  | cons lim rest =>
      have heff : 1 ≤ effective_limit lim := hl lim (List.mem_cons_self lim rest)
      have hx := page_response_eq data lim (request_for m none) m
        (L.take (effective_limit lim)) (hfirst lim)
      by_cases hcase : (L.take (effective_limit lim)).length < effective_limit lim
      · rw [if_pos hcase] at hx
        rw [scan_pages_cons_none data m none lim rest m _ hx]
        exact List.take_of_length_le
          (by have := List.length_take (effective_limit lim) L; omega)
      · rw [if_neg hcase] at hx
        have hfit : effective_limit lim ≤ L.length := by
          have := List.length_take (effective_limit lim) L
          omega
        have hi2 : effective_limit lim - 1 < L.length := by omega
        have hlast := getLast_take_drop L 0 (effective_limit lim) heff
          (by omega) (effective_limit lim - 1) (by omega) hi2
        rw [List.drop_zero] at hlast
        rw [hlast] at hx
        rw [scan_pages_cons_some data m none lim rest m _ _ hx]
        have hrec := scan_pages_drop data m L hstep rest
          (fun l hlm => hl l (List.mem_cons_of_mem lim hlm))
          (effective_limit lim - 1) hi2
          (by simp only [List.length_cons] at hn; omega)
        rw [hrec]
        have hidx : effective_limit lim - 1 + 1 = effective_limit lim := by omega
        rw [hidx]
        exact List.take_append_drop _ _

/-- Claim C1: for any fixed scan mode and any static well-formed collection,
starting from a first-page request and repeatedly following the page selector
built from the last returned item, with any per-page limits (at least one
item per page, as the Rust NonZeroU64 limit guarantees) and enough pages, the
concatenation of all returned pages equals the full collection in that mode's
order — no item twice, no item skipped, even when items share an mtime. -/
theorem C1_scan_is_whole_collection (data : ProjectCollection)
    (m : ProjectScanMode) (hwf : Wf data) (limits : List (Option Nat))
    (hl : ∀ l ∈ limits, 1 ≤ effective_limit l)
    (hn : (full_list data m).length ≤ limits.length) :
    scan_pages data m none limits = full_list data m := by
  obtain ⟨hsn, hsm, hkc⟩ := hwf
  cases m with
  | ByNameAscending =>
      exact scan_pages_complete data ProjectScanMode.ByNameAscending
        (data.iter_by_name_asc) (fun lim => rfl)
        (fun i hi lim => step_name_asc data hsn hkc.1 i hi lim) limits hl hn
  | ByNameDescending =>
      exact scan_pages_complete data ProjectScanMode.ByNameDescending
        (data.iter_by_name_desc) (fun lim => rfl)
        (fun i hi lim => step_name_desc data hsn hkc.1 i hi lim) limits hl hn
  | ByMtimeDescending =>
      exact scan_pages_complete data ProjectScanMode.ByMtimeDescending
        (data.iter_by_mtime_desc) (fun lim => rfl)
        (fun i hi lim => step_mtime_desc data hsm hkc.2 i hi lim) limits hl hn

/-- Witness for C1: scanning D3 under by-mtime-descending with limit 1 pages
returns the whole collection in that order. -/
theorem C1_witness :
    scan_pages D3 ProjectScanMode.ByMtimeDescending none
        [some 1, some 1, some 1]
      = full_list D3 ProjectScanMode.ByMtimeDescending :=
  C1_scan_is_whole_collection D3 ProjectScanMode.ByMtimeDescending
    (by decide) [some 1, some 1, some 1] (by decide) (by decide)

/-! ## Consistency of the two index maps (claim C9) -/

/-- Everything in an insertion result is the new pair or an old element. -/
theorem mem_insertSorted {K : Type} (ltb : K → K → Bool) (k : K) (v : Project)
    (l : List (K × Project)) (e : K × Project)
    (he : e ∈ insertSorted ltb k v l) : e = (k, v) ∨ e ∈ l := by
  induction l with
  | nil => simpa [insertSorted] using he
  | cons x rest ih =>
      simp only [insertSorted] at he
      by_cases h1 : ltb k x.1 = true
      · rw [if_pos h1] at he
        rcases List.mem_cons.mp he with h | h
        · exact Or.inl h
        · exact Or.inr h
      · rw [if_neg h1] at he
        by_cases h2 : ltb x.1 k = true
        · rw [if_pos h2] at he
          rcases List.mem_cons.mp he with h | h
          · exact Or.inr (List.mem_cons.mpr (Or.inl h))
          · rcases ih h with h3 | h3
            · exact Or.inl h3
            · exact Or.inr (List.mem_cons.mpr (Or.inr h3))
        · rw [if_neg h2] at he
          rcases List.mem_cons.mp he with h | h
          · exact Or.inl h
          · exact Or.inr (List.mem_cons.mpr (Or.inr h))

/-- When the inserted key differs from every key present, insertion is a
permutation of consing the new pair (no replacement happens). -/
theorem insertSorted_perm {K : Type} (ltb : K → K → Bool) (k : K) (v : Project)
    (l : List (K × Project))
    (htot : ∀ e ∈ l, ltb k e.1 = true ∨ ltb e.1 k = true) :
    (insertSorted ltb k v l).Perm ((k, v) :: l) := by
  induction l with
  | nil => simp [insertSorted]
  | cons x rest ih =>
      simp only [insertSorted]
      by_cases h1 : ltb k x.1 = true
      · rw [if_pos h1]
      · rw [if_neg h1]
        have h2 : ltb x.1 k = true := by
          rcases htot x (List.mem_cons_self x rest) with h | h
          · exact absurd h h1
          · exact h
        rw [if_pos h2]
        have hr := ih (fun e he => htot e (List.mem_cons_of_mem x he))
        exact (List.Perm.cons x hr).trans (List.Perm.swap (k, v) x rest)

/-- digitChar is injective on digits. -/
theorem digitChar_inj_fin : ∀ a b : Fin 10,
    Nat.digitChar a.1 = Nat.digitChar b.1 → a = b := by decide

/-- pad3 is injective below 1000. -/
theorem pad3_inj (a b : Nat) (ha : a < 1000) (hb : b < 1000)
    (h : pad3 a = pad3 b) : a = b := by
  have h2 := congrArg String.data h
  simp only [pad3, List.cons.injEq, and_true] at h2
  obtain ⟨e1, e2, e3⟩ := h2
  have d1 : a / 100 % 10 = b / 100 % 10 := congrArg Fin.val
    (digitChar_inj_fin ⟨a / 100 % 10, Nat.mod_lt _ (by omega)⟩
      ⟨b / 100 % 10, Nat.mod_lt _ (by omega)⟩ e1)
  have d2 : a / 10 % 10 = b / 10 % 10 := congrArg Fin.val
    (digitChar_inj_fin ⟨a / 10 % 10, Nat.mod_lt _ (by omega)⟩
      ⟨b / 10 % 10, Nat.mod_lt _ (by omega)⟩ e2)
  have d3 : a % 10 = b % 10 := congrArg Fin.val
    (digitChar_inj_fin ⟨a % 10, Nat.mod_lt _ (by omega)⟩
      ⟨b % 10, Nat.mod_lt _ (by omega)⟩ e3)
  omega

/-- projectName is injective below 1000. -/
theorem projectName_inj (a b : Nat) (ha : a < 1000) (hb : b < 1000)
    (h : projectName a = projectName b) : a = b := by
  apply pad3_inj a b ha hb
  have h2 := congrArg String.data h
  simp only [projectName, String.data_append] at h2
  exact String.ext (List.append_cancel_left h2)

/-- One seeding iteration preserves key consistency, map agreement, and the
fact that all names so far come from indices below the loop counter. -/
theorem seed_step_inv (n : Nat) (t : Int) (c : ProjectCollection)
    (h1 : 1 ≤ n) (h2 : n < 1000) (hk : KeysConsistent c) (hm : MapsAgree c)
    (hb : ∀ e ∈ c.by_name, ∃ k, 1 ≤ k ∧ k < n ∧ e.1 = projectName k) :
    KeysConsistent (seedStep n t c) ∧ MapsAgree (seedStep n t c) ∧
    (∀ e ∈ (seedStep n t c).by_name,
      ∃ k, 1 ≤ k ∧ k < n + 1 ∧ e.1 = projectName k) := by
  have hfreshName : ∀ e ∈ c.by_name, e.1 ≠ projectName n := by
    intro e he heq
    obtain ⟨k, a1, a2, a3⟩ := hb e he
    have : k = n := projectName_inj k n (by omega) h2 (by rw [← a3, heq])
    omega
  have htotName : ∀ e ∈ c.by_name,
      decide (strLt (projectName n) e.1) = true ∨
      decide (strLt e.1 (projectName n)) = true := by
    intro e he
    rcases strLt_total (projectName n) e.1
        (fun hx => hfreshName e he hx.symm) with h | h
    · exact Or.inl (decide_eq_true h)
    · exact Or.inr (decide_eq_true h)
  have hfreshKey : ∀ e ∈ c.by_mtime, e.1 ≠ (t, projectName n) := by
    intro e he heq
    have hkey := hk.2 e he
    have hname : e.2.name = projectName n := by
      have h5 : e.1.2 = projectName n := congrArg Prod.snd heq
      rw [hkey] at h5
      exact h5
    have hmem2 : e.2 ∈ c.by_mtime.map (fun x => x.2) :=
      List.mem_map.mpr ⟨e, he, rfl⟩
    have hmem1 : e.2 ∈ c.by_name.map (fun x => x.2) := hm.mem_iff.mpr hmem2
    obtain ⟨e1, he1, he1eq⟩ := List.mem_map.mp hmem1
    apply hfreshName e1 he1
    rw [hk.1 e1 he1, he1eq, hname]
  have htotKey : ∀ e ∈ c.by_mtime,
      decide (keyLt (t, projectName n) e.1) = true ∨
      decide (keyLt e.1 (t, projectName n)) = true := by
    intro e he
    rcases keyLt_total (t, projectName n) e.1
        (fun hx => hfreshKey e he hx.symm) with h | h
    · exact Or.inl (decide_eq_true h)
    · exact Or.inr (decide_eq_true h)
  have p1 := insertSorted_perm (fun a b => decide (strLt a b)) (projectName n)
    { name := projectName n, mtime := t } c.by_name htotName
  have p2 := insertSorted_perm (fun a b => decide (keyLt a b))
    (t, projectName n) { name := projectName n, mtime := t } c.by_mtime htotKey
  refine ⟨⟨?_, ?_⟩, ?_, ?_⟩
  · intro e he
    rcases mem_insertSorted _ _ _ _ e he with h | h
    · rw [h]
    · exact hk.1 e h
  · intro e he
    rcases mem_insertSorted _ _ _ _ e he with h | h
    · rw [h]
    · exact hk.2 e h
  · have q1 : ((insertSorted (fun a b => decide (strLt a b)) (projectName n)
          { name := projectName n, mtime := t } c.by_name).map
            (fun x => x.2)).Perm
        ({ name := projectName n, mtime := t }
          :: c.by_name.map (fun x => x.2)) := p1.map (fun x => x.2)
    have q2 : ((insertSorted (fun a b => decide (keyLt a b))
          (t, projectName n) { name := projectName n, mtime := t }
          c.by_mtime).map (fun x => x.2)).Perm
        ({ name := projectName n, mtime := t }
          :: c.by_mtime.map (fun x => x.2)) := p2.map (fun x => x.2)
    exact q1.trans ((List.Perm.cons _ hm).trans q2.symm)
  · intro e he
    rcases mem_insertSorted _ _ _ _ e he with h | h
    · exact ⟨n, h1, by omega, by rw [h]⟩
    · obtain ⟨k, a1, a2, a3⟩ := hb e h
      exact ⟨k, a1, by omega, a3⟩

/-- The seeding loop preserves the invariant from any starting point. -/
theorem seed_inv : ∀ (count : Nat), ∀ (n : Nat) (t : Int)
    (c : ProjectCollection), 1 ≤ n → n + count ≤ 1000 →
    KeysConsistent c → MapsAgree c →
    (∀ e ∈ c.by_name, ∃ k, 1 ≤ k ∧ k < n ∧ e.1 = projectName k) →
    KeysConsistent (seedLoop count n t c) ∧ MapsAgree (seedLoop count n t c) ∧
    (∀ e ∈ (seedLoop count n t c).by_name,
      ∃ k, 1 ≤ k ∧ k < n + count ∧ e.1 = projectName k) := by
  intro count
  induction count with
  | zero =>
      intro n t c h1 h2 hk hm hb
      refine ⟨hk, hm, fun e he => ?_⟩
      obtain ⟨k, a1, a2, a3⟩ := hb e he
      exact ⟨k, a1, by omega, a3⟩
  | succ cnt ih =>
      intro n t c h1 h2 hk hm hb
      have hres := seed_step_inv n t c h1 (by omega) hk hm hb
      have hloop := ih (n + 1) (if n % 10 ≠ 0 then t - 1 else t)
        (seedStep n t c) (by omega) (by omega) hres.1 hres.2.1 hres.2.2
      have hunfold : seedLoop (cnt + 1) n t c
          = seedLoop cnt (n + 1) (if n % 10 ≠ 0 then t - 1 else t)
              (seedStep n t c) := rfl
      rw [hunfold]
      have hb2 : n + 1 + cnt = n + (cnt + 1) := by omega
      rw [hb2] at hloop
      exact hloop

/-- Claim C9: in the collection main builds, every project stored in by_name
under its name is stored in by_mtime under (its mtime, its name) and vice
versa, and a full unbounded scan in any scan mode enumerates the same set of
projects (a permutation) as a full scan in any other mode. -/
theorem C9_maps_stay_consistent :
    KeysConsistent mainData ∧ MapsAgree mainData ∧
    (∀ e ∈ mainData.by_name,
      ((e.2.mtime, e.2.name), e.2) ∈ mainData.by_mtime) ∧
    (∀ e ∈ mainData.by_mtime, (e.2.name, e.2) ∈ mainData.by_name) ∧
    ∀ m1 m2 : ProjectScanMode,
      (full_list mainData m1).Perm (full_list mainData m2) := by
  have h := seed_inv 999 1 T0 { by_name := [], by_mtime := [] }
    (by omega) (by omega) (by decide) List.Perm.nil (by simp)
  obtain ⟨hkc, hma, hnb⟩ := h
  have hforward : ∀ e ∈ mainData.by_name,
      ((e.2.mtime, e.2.name), e.2) ∈ mainData.by_mtime := by
    intro e he
    have hv : e.2 ∈ mainData.by_name.map (fun x => x.2) :=
      List.mem_map.mpr ⟨e, he, rfl⟩
    have hv2 : e.2 ∈ mainData.by_mtime.map (fun x => x.2) := hma.mem_iff.mp hv
    obtain ⟨e2, he2, heq⟩ := List.mem_map.mp hv2
    have hkey := hkc.2 e2 he2
    have he2eq : e2 = ((e.2.mtime, e.2.name), e.2) := by
      rw [← heq]
      exact Prod.ext hkey rfl
    rw [← he2eq]
    exact he2
  have hbackward : ∀ e ∈ mainData.by_mtime,
      (e.2.name, e.2) ∈ mainData.by_name := by
    intro e he
    have hv : e.2 ∈ mainData.by_mtime.map (fun x => x.2) :=
      List.mem_map.mpr ⟨e, he, rfl⟩
    have hv2 : e.2 ∈ mainData.by_name.map (fun x => x.2) := hma.mem_iff.mpr hv
    obtain ⟨e2, he2, heq⟩ := List.mem_map.mp hv2
    have hkey := hkc.1 e2 he2
    have he2eq : e2 = (e.2.name, e.2) := by
      rw [← heq]
      exact Prod.ext hkey rfl
    rw [← he2eq]
    exact he2
  have hp : ∀ m1 : ProjectScanMode,
      (full_list mainData m1).Perm (mainData.by_name.map (fun e => e.2)) := by
    intro m1
    cases m1 with
    | ByNameAscending => exact List.Perm.refl _
    | ByNameDescending => exact List.reverse_perm _
    | ByMtimeDescending => exact (List.reverse_perm _).trans hma.symm
  exact ⟨hkc, hma, hforward, hbackward,
    fun m1 m2 => (hp m1).trans (hp m2).symm⟩
